import Mathlib

/-!
# Verification of the courier-cards ingestion engine

Shallow embedding of `data_processing.py`: text cells are lists of Unicode
codepoints (`Str`), tables are a column-name list plus a row list, and the
per-file pipelines (`analyze_csvs`, `analyze_pm_excels`) are translated
function by function.  File reading (pandas / openpyxl) is an external
effect; a file is therefore modelled as its path, its (lowercased-later)
suffix, and the outcome that reading produced (`Except` failure or a table).
-/

set_option autoImplicit false
set_option maxRecDepth 8192

namespace CourierCards

/-- Text is modelled as its list of Unicode codepoints. -/
abbrev Str := List Nat

/-- Codepoints of a Lean string literal, for writing concrete values. -/
def codes (s : String) : Str := s.data.map Char.toNat

/-- A decoded table: ordered column names and ordered rows of cells.
Cells are carried as their `str()` rendering, matching the `astype(str)`
conversions the source applies before every comparison. -/
structure Table where
  cols : List Str
  rows : List (List Str)
  deriving Repr, DecidableEq

/-- Python `str.strip()` whitespace, restricted to the ASCII whitespace
codepoints that occur in this domain. -/
def isPySpace (n : Nat) : Bool := decide ((9 ≤ n ∧ n ≤ 13) ∨ n = 32)

/-- Python `str.lower()` on one codepoint, covering ASCII `A`-`Z` and the
Cyrillic capitals `А`-`Я` and `Ё` used by this domain. -/
def lowerVal (n : Nat) : Nat :=
  if 65 ≤ n ∧ n ≤ 90 then n + 32
  else if 1040 ≤ n ∧ n ≤ 1071 then n + 32
  else if n = 1025 then 1105
  else n

/-- Python `str.upper()` on one codepoint (ASCII `a`-`z`, Cyrillic `а`-`я`, `ё`). -/
def upperVal (n : Nat) : Nat :=
  if 97 ≤ n ∧ n ≤ 122 then n - 32
  else if 1072 ≤ n ∧ n ≤ 1103 then n - 32
  else if n = 1105 then 1025
  else n

/-- `str.replace("ё", "е")` on one codepoint (`ё` = 1105, `е` = 1077). -/
def foldYoVal (n : Nat) : Nat := if n = 1105 then 1077 else n

/-- Leading-whitespace removal. -/
def lstripWS : Str → Str
  | [] => []
  | c :: rest => if isPySpace c then lstripWS rest else c :: rest

/-- Trailing-whitespace removal. -/
def rstripWS : Str → Str
  | [] => []
  | c :: rest =>
    if (rstripWS rest).isEmpty && isPySpace c then [] else c :: rstripWS rest

/-- `str.strip()`: drop leading and trailing whitespace. -/
def stripL (s : Str) : Str := rstripWS (lstripWS s)

/-- `str.lower()`. -/
def lowerStr (s : Str) : Str := s.map lowerVal

/-- `str.upper()`. -/
def upperStr (s : Str) : Str := s.map upperVal

/-- `str.replace("ё", "е")`. -/
def foldYo (s : Str) : Str := s.map foldYoVal

/-- Does `s` start with `p`?  (Python `str.startswith`, used to build
substring containment.) -/
def leadsWith : Str → Str → Bool
  | _, [] => true
  | [], _ :: _ => false
  | a :: s, b :: p => a = b && leadsWith s p

/-- Python's substring test `sub in hay`. -/
def containsSub : Str → Str → Bool
  | [], sub => sub.isEmpty
  | hay@(_ :: t), sub => leadsWith hay sub || containsSub t sub

/-- First index of a column name in a column list (pandas label lookup:
first matching label). -/
def idxOfL : List Str → Str → Nat
  | [], _ => 0
  | c :: rest, a => if c = a then 0 else idxOfL rest a + 1

/-- `df[col]`: the series of that column's cells, by label. -/
def getCol (t : Table) (c : Str) : List Str :=
  t.rows.map (fun r => r.getD (idxOfL t.cols c) [])

/-- `.strip().lower().replace("ё", "е")` — applied both to headers in
`_normalize_columns` and to status values in `_count_in_df`. -/
def normLower (s : Str) : Str := foldYo (lowerStr (stripL s))

/-- `.strip().upper()` — applied to type values and site codes. -/
def normUpper (s : Str) : Str := upperStr (stripL s)

/-- `_normalize_columns`: rewrite every header via `normLower`. -/
def _normalize_columns (t : Table) : Table :=
  { cols := t.cols.map normLower, rows := t.rows }

/-- First pass of `_pick_column`: exact membership, in candidate order. -/
def pickExact (cols : List Str) : List Str → Option Str
  | [] => none
  | cand :: rest => if cols.contains cand then some cand else pickExact cols rest

/-- Second pass of `_pick_column`: first column (in table order) containing
any candidate as a substring. -/
def pickSub (cands : List Str) : List Str → Option Str
  | [] => none
  | col :: rest =>
    if cands.any (fun cand => containsSub col cand) then some col
    else pickSub cands rest

/-- `KeyError` message of `_pick_column` (interpolated lists abbreviated). -/
def pickColumnErrMsg : Str := codes "Не найдена колонка из списка"

/-- `_pick_column`: exact match over all candidates first, then substring. -/
def _pick_column (cols : List Str) (cands : List Str) : Except Str Str :=
  match pickExact cols cands with
  | some cand => .ok cand
  | none =>
    match pickSub cands cols with
    | some col => .ok col
    | none => .error pickColumnErrMsg

/-- Candidate labels for the status column in `_count_in_df`. -/
def statusCandidates : List Str :=
  [codes "статус задания", codes "статус", codes "статус_задания"]

/-- Candidate labels for the type column in `_count_in_df`. -/
def typeCandidates : List Str :=
  [codes "тип адреса", codes "тип_адреса", codes "тип точки", codes "тип_точки", codes "тип"]

/-- The completion token compared against normalized status values. -/
def doneToken : Str := codes "выполнено"

/-- The postomat type code. -/
def postomatCode : Str := codes "П"

/-- The per-file counters returned by `_count_in_df` (`others` is computed
as an integer subtraction in the source). -/
structure Counts where
  total_completed : Nat
  postomats : Nat
  others : Int
  deriving Repr, DecidableEq

/-- Row-level completion test of `_count_in_df` (`done_mask`). -/
def doneRow (si : Nat) (r : List Str) : Bool :=
  normLower (r.getD si []) == doneToken

/-- `_count_in_df`: resolve status and type columns, count completed rows,
completed postomat rows, and the remainder.  The pandas masks are aligned
by row index, so the elementwise `&` is the per-row conjunction. -/
def _count_in_df (t : Table) : Except Str Counts :=
  match _pick_column (_normalize_columns t).cols statusCandidates with
  | .error e => .error e
  | .ok status_col =>
    match _pick_column (_normalize_columns t).cols typeCandidates with
    | .error e => .error e
    | .ok type_col =>
      let tn := _normalize_columns t
      let si := idxOfL tn.cols status_col
      let ti := idxOfL tn.cols type_col
      let total_completed := tn.rows.countP (fun r => doneRow si r)
      let postomats := tn.rows.countP
        (fun r => doneRow si r && (normUpper (r.getD ti []) == postomatCode))
      .ok { total_completed := total_completed, postomats := postomats,
            others := (total_completed : Int) - (postomats : Int) }

/-- A delimited-text input file: path, extension, and the outcome that
`_smart_read_csv` produced on it (decoding is an external effect). -/
structure CsvFile where
  path : Str
  suffix : Str
  content : Except Str Table
  deriving Repr

/-- One `per_file` record of `analyze_csvs`. -/
structure PerFileEntry where
  file : Str
  total_completed : Nat
  postomats : Nat
  others : Int
  deriving Repr, DecidableEq

/-- One error record (`{"file": ..., "error": ...}`). -/
structure ErrEntry where
  file : Str
  error : Str
  deriving Repr, DecidableEq

/-- Result shape of `analyze_csvs`.  Note: no skip list exists here. -/
structure CsvResult where
  totals : Counts
  per_file : List PerFileEntry
  errors : List ErrEntry
  deriving Repr, DecidableEq

/-- Componentwise addition of counters (the `totals[...] += ...` lines). -/
def addCounts (a b : Counts) : Counts :=
  ⟨a.total_completed + b.total_completed, a.postomats + b.postomats, a.others + b.others⟩

/-- Zero-initialized totals. -/
def zeroCounts : Counts := ⟨0, 0, 0⟩

/-- The body of the `try` block of `analyze_csvs` for one file: read, then
count; an exception from either step is caught at the same handler. -/
def csvProcess (f : CsvFile) : Except Str Counts :=
  match f.content with
  | .error e => .error e
  | .ok df => _count_in_df df

/-- The `.csv` extension. -/
def csvSuffix : Str := codes ".csv"

/-- `analyze_csvs`: files whose lowercased suffix is not `.csv` are passed
over with no record; each `.csv` file yields a `per_file` entry (and a
totals contribution) or an error entry. -/
def analyze_csvs : List CsvFile → CsvResult
  | [] => ⟨zeroCounts, [], []⟩
  | f :: rest =>
    let r := analyze_csvs rest
    if lowerStr f.suffix = csvSuffix then
      match csvProcess f with
      | .ok c =>
        ⟨addCounts c r.totals,
         ⟨f.path, c.total_completed, c.postomats, c.others⟩ :: r.per_file,
         r.errors⟩
      | .error e => ⟨r.totals, r.per_file, ⟨f.path, e⟩ :: r.errors⟩
    else r

/-- The site-name → site-code configuration `PM_CODES` (insertion order). -/
def pmCodes : List (Str × Str) :=
  [(codes "Декабрьская", codes "MSK650"),
   (codes "Живова", codes "MSK963"),
   (codes "Мневники", codes "MSK1125"),
   (codes "Твардовского", codes "MSK2469")]

/-- The metric label `PM_METRIC_RAW`. -/
def pmMetricRaw : Str := codes "Ср. срок на последней миле для 2 якоря без СДД, дн"

/-- `string.punctuation` membership (the ASCII punctuation ranges). -/
def isPunct (n : Nat) : Bool :=
  decide ((33 ≤ n ∧ n ≤ 47) ∨ (58 ≤ n ∧ n ≤ 64) ∨ (91 ≤ n ∧ n ≤ 96) ∨ (123 ≤ n ∧ n ≤ 126))

/-- `_norm_text`: strip, lowercase, fold ё→е, then delete punctuation and
spaces (`str.maketrans("", "", string.punctuation + " ")`). -/
def _norm_text (s : Str) : Str :=
  (normLower s).filter (fun n => !(isPunct n || n == 32))

/-- Keyword list of the third heuristic of `_find_metric_col_loose`. -/
def pmKeywords : List Str :=
  [codes "последней", codes "мил", codes "якор", codes "сдд", codes "срок"]

/-- `KeyError` message of `_find_metric_col_loose` (details abbreviated). -/
def metricErrMsg : Str := codes "Не удалось найти колонку метрики"

/-- `_find_metric_col_loose`: exact normalized match, then two-way
substring containment, then a ≥3-of-5 keyword score; first hit wins. -/
def _find_metric_col_loose (t : Table) : Except Str Str :=
  let target := _norm_text pmMetricRaw
  match t.cols.find? (fun c => _norm_text c == target) with
  | some c => .ok c
  | none =>
    match t.cols.find? (fun c =>
        containsSub (_norm_text c) target || containsSub target (_norm_text c)) with
    | some c => .ok c
    | none =>
      match t.cols.find? (fun c =>
          3 ≤ pmKeywords.countP (fun kw => containsSub (_norm_text c) kw)) with
      | some c => .ok c
      | none => .error metricErrMsg

/-- Exact-hit count of one column: how many of the expected codes occur
(trimmed, uppercased) among its values. -/
def hitsOf (t : Table) (upcodes : List Str) (col : Str) : Nat :=
  upcodes.countP (fun code => (getCol t col).any (fun cell => normUpper cell == code))

/-- The left-to-right best-column scan of `_find_code_col_loose`
(`best_hits` starts at `-1`; update only on strictly greater). -/
def codeLoop (t : Table) (upcodes : List Str) :
    List Str → Option Str → Int → Option Str × Int
  | [], best, bestHits => (best, bestHits)
  | col :: rest, best, bestHits =>
    let hits := hitsOf t upcodes col
    if (hits : Int) > bestHits then codeLoop t upcodes rest (some col) (hits : Int)
    else codeLoop t upcodes rest best bestHits

/-- ASCII digit codepoint. -/
def isDigitCp (n : Nat) : Bool := decide (48 ≤ n ∧ n ≤ 57)

/-- Regex word character (`\w`): ASCII alphanumerics, underscore, and the
Cyrillic block used in this domain. -/
def isWordCp (n : Nat) : Bool :=
  isDigitCp n ||
    decide ((65 ≤ n ∧ n ≤ 90) ∨ (97 ≤ n ∧ n ≤ 122) ∨ n = 95 ∨ (1024 ≤ n ∧ n ≤ 1279))

/-- After the first digit: skip further digits; the run must end at the
string end or at a non-word character for `\bMSK\d+\b` to match (digits are
word characters, so the only possible boundary is past the maximal run). -/
def mskTail : Str → Bool
  | [] => true
  | c :: rest => if isDigitCp c then mskTail rest else !isWordCp c

/-- At least one digit after `MSK`, then a word boundary. -/
def mskDigits : Str → Bool
  | [] => false
  | c :: rest => isDigitCp c && mskTail rest

/-- Does `\bMSK\d+\b` match starting at this position (boundary before `M`
is checked by the caller)?  `M` = 77, `S` = 83, `K` = 75. -/
def startsMsk : Str → Bool
  | 77 :: 83 :: 75 :: rest => mskDigits rest
  | _ => false

/-- Scan for `\bMSK\d+\b`; the flag records whether the previous character
was a word character (so a match may start only after a non-word one). -/
def hasMskAux : Bool → Str → Bool
  | _, [] => false
  | prevWord, s@(c :: rest) => (!prevWord && startsMsk s) || hasMskAux (isWordCp c) rest

/-- `.str.contains(r"\bMSK\d+\b")` on one cell. -/
def hasMsk (s : Str) : Bool := hasMskAux false s

/-- `KeyError` message of `_find_code_col_loose`. -/
def codeColErrMsg : Str := codes "Не удалось найти колонку с кодами MSK***."

/-- `_find_code_col_loose`: pick the column with the most exact code hits
(strictly-greater update, so first column wins ties); if the best is `None`
or has no hit, fall back to the first column containing an `MSK`+digits
value; else raise. -/
def _find_code_col_loose (t : Table) (cs : List Str) : Except Str Str :=
  let upcodes := cs.map (fun c => upperStr (stripL c))
  let bh := codeLoop t upcodes t.cols none (-1)
  match bh.1 with
  | some c =>
    if bh.2 ≤ 0 then
      match t.cols.find? (fun col => (getCol t col).any (fun cell => hasMsk cell)) with
      | some col => .ok col
      | none => .error codeColErrMsg
    else .ok c
  | none =>
    match t.cols.find? (fun col => (getCol t col).any (fun cell => hasMsk cell)) with
    | some col => .ok col
    | none => .error codeColErrMsg

/-- `_extract_pm_from_df`: locate the metric and code columns, then for
each configured site take the metric value of the first row whose
(trimmed, uppercased) code cell equals the site's code. -/
def _extract_pm_from_df (t : Table) : Except Str (List (Str × Option Str)) :=
  match _find_metric_col_loose t with
  | .error e => .error e
  | .ok metric_col =>
    match _find_code_col_loose t (pmCodes.map Prod.snd) with
    | .error e => .error e
    | .ok code_col =>
      let mi := idxOfL t.cols metric_col
      let ci := idxOfL t.cols code_col
      .ok (pmCodes.map (fun nc =>
        (nc.1, (t.rows.find? (fun r => normUpper (r.getD ci []) == nc.2)).map
          (fun r => r.getD mi []))))

/-- Sheet score: number of non-`None` extracted values. -/
def pmScore (vals : List (Str × Option Str)) : Nat :=
  vals.countP (fun v => v.2.isSome)

/-- The sheet loop of `analyze_pm_excels`: extraction failures skip the
sheet; a strictly higher score replaces the best; reaching the maximal
score (`len(PM_CODES)`) breaks out of the scan. -/
def pmLoop : List (Str × Table) → Option (Str × List (Str × Option Str)) → Int →
    Option (Str × List (Str × Option Str))
  | [], best, _ => best
  | (name, df) :: rest, best, bestScore =>
    match _extract_pm_from_df df with
    | .error _ => pmLoop rest best bestScore
    | .ok vals =>
      let score := pmScore vals
      if (score : Int) > bestScore then
        if score = pmCodes.length then some (name, vals)
        else pmLoop rest (some (name, vals)) (score : Int)
      else pmLoop rest best bestScore

/-- A workbook input file: path, extension, and the outcome of
`pd.read_excel(p, sheet_name=None)` — the ordered sheet list, or the
raised message. -/
structure XlFile where
  path : Str
  suffix : Str
  sheets : Except Str (List (Str × Table))
  deriving Repr

/-- One `results` record of `analyze_pm_excels`. -/
structure PmEntry where
  file : Str
  sheet : Str
  values : List (Str × Option Str)
  deriving Repr, DecidableEq

/-- One skip record (`{"file": ..., "reason": ...}`). -/
structure SkipEntry where
  file : Str
  reason : Str
  deriving Repr, DecidableEq

/-- Result shape of `analyze_pm_excels`. -/
structure PmResult where
  results : List PmEntry
  errors : List ErrEntry
  skipped : List SkipEntry
  deriving Repr, DecidableEq

/-- Recognized workbook extensions. -/
def excelExts : List Str := [codes ".xlsx", codes ".xls", codes ".xlsm"]

/-- The skip reason for non-workbook files. -/
def notExcelReason : Str := codes "Не Excel"

/-- Error message raised when no sheet's extraction succeeded. -/
def noDataErrMsg : Str := codes "Не удалось извлечь ПМ-значения ни с одного листа."

/-- `analyze_pm_excels`: skip non-workbook files with a reason; a read
failure or an all-sheets extraction failure yields an error record; else
the best sheet's values are recorded. -/
def analyze_pm_excels : List XlFile → PmResult
  | [] => ⟨[], [], []⟩
  | f :: rest =>
    let r := analyze_pm_excels rest
    if excelExts.contains (lowerStr f.suffix) then
      match f.sheets with
      | .error e => ⟨r.results, ⟨f.path, e⟩ :: r.errors, r.skipped⟩
      | .ok sheets =>
        match pmLoop sheets none (-1) with
        | none => ⟨r.results, ⟨f.path, noDataErrMsg⟩ :: r.errors, r.skipped⟩
        | some sv => ⟨⟨f.path, sv.1, sv.2⟩ :: r.results, r.errors, r.skipped⟩
    else ⟨r.results, r.errors, ⟨f.path, notExcelReason⟩ :: r.skipped⟩

/-- The four-category counters of the later schema (spec §3, §4.3). -/
structure Counts4 where
  total_completed : Nat
  postomat : Nat
  pickup_point : Nat
  courier_delivery : Nat
  pending_order : Nat
  deriving Repr, DecidableEq

/-- Modelled from the spec: the later four-category RowCategorizer (§4.3,
§9, glossary) is not in `src/` — the snapshot there computes the two-bucket
form `_count_in_df`.  Per the spec it resolves the same status and type
columns, counts completed rows, and keeps one counter per exact type code
`П` / `ПВЗ` / `Д` / `З`. -/
def countFourCategories (t : Table) : Except Str Counts4 :=
  match _pick_column (_normalize_columns t).cols statusCandidates with
  | .error e => .error e
  | .ok status_col =>
    match _pick_column (_normalize_columns t).cols typeCandidates with
    | .error e => .error e
    | .ok type_col =>
      let tn := _normalize_columns t
      let si := idxOfL tn.cols status_col
      let ti := idxOfL tn.cols type_col
      let catCount := fun (code : Str) =>
        tn.rows.countP (fun r => doneRow si r && (normUpper (r.getD ti []) == code))
      .ok ⟨tn.rows.countP (fun r => doneRow si r), catCount postomatCode,
           catCount (codes "ПВЗ"), catCount (codes "Д"), catCount (codes "З")⟩

/-- Split a line on `;` (codepoint 59), accumulating the current field. -/
def splitSemiAux : Str → Str → List Str
  | [], acc => [acc.reverse]
  | c :: rest, acc =>
    if c = 59 then acc.reverse :: splitSemiAux rest []
    else splitSemiAux rest (c :: acc)

/-- Modelled from the spec: the TableDecoder outcome (§4.1) on a
semicolon-delimited text file — the delimiter search itself lives in the
pandas reader, outside `src/`.  The first line is the header row. -/
def mkTableSemi : List Str → Table
  | [] => ⟨[], []⟩
  | header :: rows => ⟨splitSemiAux header [], rows.map (fun r => splitSemiAux r [])⟩

/-- Follows the spec's words (§4.6): the exhaustive scan over all sheets
keeping the strictly-highest-scoring sheet, first seen winning ties — the
reference the early-exit loop `pmLoop` is compared against. -/
def pmScanExhaustive : List (Str × Table) → Option (Str × List (Str × Option Str)) → Int →
    Option (Str × List (Str × Option Str))
  | [], best, _ => best
  | (name, df) :: rest, best, bestScore =>
    match _extract_pm_from_df df with
    | .error _ => pmScanExhaustive rest best bestScore
    | .ok vals =>
      let score := pmScore vals
      if (score : Int) > bestScore then pmScanExhaustive rest (some (name, vals)) (score : Int)
      else pmScanExhaustive rest best bestScore

/-! ## Concrete fixtures used by the example clauses and witnesses -/

/-- The delimited-text lines of the end-to-end example. -/
def c1lines : List Str :=
  [codes "Статус задания;Тип Адреса",
   codes "Выполнено;П", codes "Выполнено;Д", codes "в обработке;П"]

/-- The decoded example table. -/
def tEx : Table := mkTableSemi c1lines

/-- The example table with its first two rows swapped. -/
def tExSwap : Table :=
  ⟨tEx.cols,
   [[codes "Выполнено", codes "Д"], [codes "Выполнено", codes "П"],
    [codes "в обработке", codes "П"]]⟩

/-- A sheet resolving 2 of the 4 site codes. -/
def tblA2 : Table :=
  ⟨[pmMetricRaw, codes "Код"],
   [[codes "1", codes "MSK650"], [codes "2", codes "MSK963"]]⟩

/-- A sheet resolving all 4 site codes. -/
def tblB4 : Table :=
  ⟨[pmMetricRaw, codes "Код"],
   [[codes "1", codes "MSK650"], [codes "2", codes "MSK963"],
    [codes "3", codes "MSK1125"], [codes "4", codes "MSK2469"]]⟩

/-- A sheet resolving 3 of the 4 site codes. -/
def tblA3 : Table :=
  ⟨[pmMetricRaw, codes "Код"],
   [[codes "1", codes "MSK650"], [codes "2", codes "MSK963"],
    [codes "3", codes "MSK1125"]]⟩

/-- Another sheet resolving 3 of the 4 site codes (a different three). -/
def tblB3 : Table :=
  ⟨[pmMetricRaw, codes "Код"],
   [[codes "5", codes "MSK963"], [codes "6", codes "MSK1125"],
    [codes "7", codes "MSK2469"]]⟩

/-- A sheet whose metric column resolves and whose code column is found
only through the `MSK`-pattern fallback (`MSK999` matches the pattern but
equals none of the configured codes), so extraction succeeds with zero
extracted values. -/
def cexC3Sheet : Table :=
  ⟨[pmMetricRaw, codes "Код"], [[codes "1.5", codes "MSK999"]]⟩

/-- A workbook around `cexC3Sheet`. -/
def cexC3File : XlFile :=
  ⟨codes "pm.xlsx", codes ".xlsx", .ok [(codes "Лист1", cexC3Sheet)]⟩

/-- A workbook whose only sheet resolves all four sites. -/
def pmOkFile : XlFile :=
  ⟨codes "pm2.xlsx", codes ".xlsx", .ok [(codes "Лист1", tblB4)]⟩

/-- Two columns each holding exactly 2 of the 4 expected codes. -/
def tieTable : Table :=
  ⟨[codes "A", codes "B"],
   [[codes "MSK650", codes "MSK1125"], [codes "MSK963", codes "MSK2469"]]⟩

/-- A workbook-suffixed file handed to the CSV analyzer. -/
def xlsxToCsvFile : CsvFile := ⟨codes "report.xlsx", codes ".xlsx", .ok ⟨[], []⟩⟩

/-- A CSV file that decodes to the example table. -/
def okCsv1 : CsvFile := ⟨codes "a.csv", codes ".csv", .ok tEx⟩

/-- A CSV file whose decoding raised. -/
def badCsv : CsvFile :=
  ⟨codes "b.csv", codes ".csv", .error (codes "ParserError: ожидалось 2 поля")⟩

/-- A CSV file that decodes to the row-swapped example table. -/
def okCsv3 : CsvFile := ⟨codes "c.csv", codes ".csv", .ok tExSwap⟩

/-- A non-workbook file handed to the workbook analyzer. -/
def txtXlFile : XlFile := ⟨codes "notes.txt", codes ".txt", .ok []⟩

/-! ## Helper lemmas -/

theorem lstripWS_idem (s : Str) : lstripWS (lstripWS s) = lstripWS s := by
  induction s with
  | nil => rfl
  | cons c rest ih =>
    by_cases h : isPySpace c = true <;> simp [lstripWS, h, ih]

theorem rstripWS_idem (s : Str) : rstripWS (rstripWS s) = rstripWS s := by
  induction s with
  | nil => rfl
  | cons c rest ih =>
    simp only [rstripWS]
    by_cases h : ((rstripWS rest).isEmpty && isPySpace c) = true
    · rw [if_pos h]; rfl
    · rw [if_neg h]
      simp only [rstripWS, ih]
      rw [if_neg h]

theorem lstripWS_length_le (s : Str) : (lstripWS s).length ≤ s.length := by
  induction s with
  | nil => simp [lstripWS]
  | cons c rest ih =>
    by_cases h : isPySpace c = true <;> simp [lstripWS, h] <;> omega

theorem lstripWS_of_fixed_rstrip (s : Str) (h : lstripWS s = s) :
    lstripWS (rstripWS s) = rstripWS s := by
  cases s with
  | nil => rfl
  | cons c rest =>
    have hc : isPySpace c = false := by
      cases hcb : isPySpace c
      · rfl
      · exfalso
        simp only [lstripWS, hcb, if_true] at h
        have hl := lstripWS_length_le rest
        rw [h] at hl
        simp only [List.length_cons] at hl
        omega
    simp only [rstripWS]
    by_cases he : ((rstripWS rest).isEmpty && isPySpace c) = true
    · rw [if_pos he]; rfl
    · rw [if_neg he]
      simp [lstripWS, hc]

theorem stripL_idem (s : Str) : stripL (stripL s) = stripL s := by
  unfold stripL
  rw [lstripWS_of_fixed_rstrip (lstripWS s) (lstripWS_idem s), rstripWS_idem]

theorem isEmpty_map (f : Nat → Nat) (s : Str) : (s.map f).isEmpty = s.isEmpty := by
  cases s <;> rfl

theorem lstripWS_map (f : Nat → Nat) (hf : ∀ n, isPySpace (f n) = isPySpace n)
    (s : Str) : lstripWS (s.map f) = (lstripWS s).map f := by
  induction s with
  | nil => rfl
  | cons c rest ih =>
    simp only [List.map_cons, lstripWS, hf]
    by_cases h : isPySpace c = true
    · rw [if_pos h, if_pos h, ih]
    · rw [if_neg h, if_neg h]; rfl

theorem rstripWS_map (f : Nat → Nat) (hf : ∀ n, isPySpace (f n) = isPySpace n)
    (s : Str) : rstripWS (s.map f) = (rstripWS s).map f := by
  induction s with
  | nil => rfl
  | cons c rest ih =>
    simp only [List.map_cons, rstripWS, ih, isEmpty_map, hf]
    by_cases h : ((rstripWS rest).isEmpty && isPySpace c) = true
    · rw [if_pos h, if_pos h]; rfl
    · rw [if_neg h, if_neg h]; rfl

theorem stripL_map (f : Nat → Nat) (hf : ∀ n, isPySpace (f n) = isPySpace n)
    (s : Str) : stripL (s.map f) = (stripL s).map f := by
  unfold stripL
  rw [lstripWS_map f hf, rstripWS_map f hf]

theorem lstripWS_of_no_space (s : Str) (h : ∀ a ∈ s, isPySpace a = false) :
    lstripWS s = s := by
  cases s with
  | nil => rfl
  | cons c rest => simp [lstripWS, h c (by simp)]

theorem rstripWS_of_no_space (s : Str) (h : ∀ a ∈ s, isPySpace a = false) :
    rstripWS s = s := by
  induction s with
  | nil => rfl
  | cons c rest ih =>
    have ih' := ih (fun a ha => h a (by simp [ha]))
    simp [rstripWS, ih', h c (by simp)]

theorem stripL_of_no_space (s : Str) (h : ∀ a ∈ s, isPySpace a = false) :
    stripL s = s := by
  unfold stripL
  rw [lstripWS_of_no_space s h, rstripWS_of_no_space s h]

theorem mem_lstripWS {a : Nat} {s : Str} (h : a ∈ lstripWS s) : a ∈ s := by
  induction s with
  | nil => simpa [lstripWS] using h
  | cons c rest ih =>
    by_cases hc : isPySpace c = true
    · simp only [lstripWS, hc, if_true] at h
      exact List.mem_cons_of_mem c (ih h)
    · simpa [lstripWS, hc] using h

theorem mem_rstripWS {a : Nat} {s : Str} (h : a ∈ rstripWS s) : a ∈ s := by
  induction s with
  | nil => simpa [rstripWS] using h
  | cons c rest ih =>
    by_cases hc : ((rstripWS rest).isEmpty && isPySpace c) = true
    · simp only [rstripWS, hc, if_true] at h
      cases h
    · simp only [rstripWS, hc, if_false] at h
      rcases List.mem_cons.mp h with h | h
      · simp [h]
      · exact List.mem_cons_of_mem c (ih h)

theorem mem_stripL {a : Nat} {s : Str} (h : a ∈ stripL s) : a ∈ s :=
  mem_lstripWS (mem_rstripWS h)

/-- The composite per-codepoint action of `.lower().replace("ё","е")`. -/
def nlVal (n : Nat) : Nat := foldYoVal (lowerVal n)

/-- The deletion filter of `_norm_text` (drop punctuation and spaces). -/
def keepCp (n : Nat) : Bool := !(isPunct n || n == 32)

theorem nlVal_idem (n : Nat) : nlVal (nlVal n) = nlVal n := by
  unfold nlVal foldYoVal lowerVal
  split_ifs <;> omega

theorem nlVal_space (n : Nat) : isPySpace (nlVal n) = isPySpace n := by
  unfold nlVal isPySpace foldYoVal lowerVal
  split_ifs <;> simp only [decide_eq_decide] <;> omega

theorem normLower_eq (s : Str) : normLower s = (stripL s).map nlVal := by
  simp [normLower, foldYo, lowerStr, List.map_map, nlVal, Function.comp]

theorem norm_text_eq (s : Str) : _norm_text s = ((stripL s).map nlVal).filter keepCp := by
  simp only [_norm_text, normLower_eq]
  rfl

theorem normLower_idem (s : Str) : normLower (normLower s) = normLower s := by
  rw [normLower_eq, normLower_eq, stripL_map nlVal nlVal_space, stripL_idem,
    List.map_map]
  exact List.map_congr_left (fun a _ => nlVal_idem a)

theorem norm_text_idem_of_space_only (s : Str)
    (hs : ∀ n ∈ s, isPySpace n = false ∨ n = 32) :
    _norm_text (_norm_text s) = _norm_text s := by
  rw [norm_text_eq s, norm_text_eq (((stripL s).map nlVal).filter keepCp)]
  have hnospace : ∀ a ∈ ((stripL s).map nlVal).filter keepCp, isPySpace a = false := by
    intro a ha
    obtain ⟨hamem, hakeep⟩ := List.mem_filter.mp ha
    obtain ⟨b, hb, rfl⟩ := List.mem_map.mp hamem
    rcases hs b (mem_stripL hb) with h | h
    · rw [nlVal_space, h]
    · subst h
      exact absurd hakeep (by decide)
  rw [stripL_of_no_space _ hnospace]
  have hfix : ∀ a ∈ ((stripL s).map nlVal).filter keepCp, nlVal a = a := by
    intro a ha
    obtain ⟨hamem, _⟩ := List.mem_filter.mp ha
    obtain ⟨b, _, rfl⟩ := List.mem_map.mp hamem
    exact nlVal_idem b
  rw [List.map_congr_left hfix, List.map_id']
  apply List.filter_eq_self.mpr
  intro a ha
  exact (List.mem_filter.mp ha).2

/-- C9 fails on `_norm_text`: in `".\tа"` the tab survives the deletion
step (it is neither punctuation nor a space) and becomes leading once the
dot is deleted, so a second normalization strips it: the metric-name
normalization is not idempotent. -/
theorem c9_metric_norm_not_idempotent :
    _norm_text (_norm_text (codes ".\tа")) ≠ _norm_text (codes ".\tа") := by decide

/-- C9 (amended): the column-name normalization (trim, lowercase, ё→е) is
idempotent on every string; the metric-name normalization (which further
deletes punctuation and spaces) is idempotent on every string whose only
whitespace is the plain space; and `Статус Задания`, `статус задания`,
`СТАТУС ЗАДАНИЯ` all normalize to the same string under both. -/
theorem c9_normalization_idempotent :
    (∀ s, normLower (normLower s) = normLower s) ∧
    (∀ s, (∀ n ∈ s, isPySpace n = false ∨ n = 32) →
      _norm_text (_norm_text s) = _norm_text s) ∧
    (normLower (codes "Статус Задания") = codes "статус задания" ∧
     normLower (codes "статус задания") = codes "статус задания" ∧
     normLower (codes "СТАТУС ЗАДАНИЯ") = codes "статус задания" ∧
     _norm_text (codes "Статус Задания") = codes "статусзадания" ∧
     _norm_text (codes "статус задания") = codes "статусзадания" ∧
     _norm_text (codes "СТАТУС ЗАДАНИЯ") = codes "статусзадания") :=
  ⟨normLower_idem, norm_text_idem_of_space_only, by decide⟩

/-- Closed instance of C9's amended statement at `"Статус Задания"`. -/
theorem c9_normalization_idempotent_witness :
    _norm_text (_norm_text (codes "Статус Задания")) = _norm_text (codes "Статус Задания") :=
  c9_normalization_idempotent.2.1 (codes "Статус Задания") (by decide)

/-- C1: the semicolon-delimited file with header `Статус задания;Тип Адреса`
and rows `Выполнено;П`, `Выполнено;Д`, `в обработке;П` yields, under the
spec-modelled four-category schema, `total_completed = 2`, `postomat = 1`,
`courier_delivery = 1` (and no pickup-point or pending-order rows); the
two-bucket `_count_in_df` of `src/` counts 2 completed, 1 postomat, 1 other
on the same table. -/
theorem c1_end_to_end_example :
    countFourCategories (mkTableSemi c1lines) = .ok ⟨2, 1, 0, 1, 0⟩ ∧
    _count_in_df (mkTableSemi c1lines) = .ok ⟨2, 1, 1⟩ :=
  ⟨rfl, rfl⟩

theorem count_in_df_eq_of_picks {t : Table} {sc tc : Str}
    (hs : _pick_column (_normalize_columns t).cols statusCandidates = .ok sc)
    (ht : _pick_column (_normalize_columns t).cols typeCandidates = .ok tc) :
    _count_in_df t = .ok
      ⟨(_normalize_columns t).rows.countP
         (fun r => doneRow (idxOfL (_normalize_columns t).cols sc) r),
       (_normalize_columns t).rows.countP
         (fun r => doneRow (idxOfL (_normalize_columns t).cols sc) r &&
           (normUpper (r.getD (idxOfL (_normalize_columns t).cols tc) []) ==
             postomatCode)),
       ((_normalize_columns t).rows.countP
          (fun r => doneRow (idxOfL (_normalize_columns t).cols sc) r) : Int) -
         ((_normalize_columns t).rows.countP
            (fun r => doneRow (idxOfL (_normalize_columns t).cols sc) r &&
              (normUpper (r.getD (idxOfL (_normalize_columns t).cols tc) []) ==
                postomatCode)) : Int)⟩ := by
  unfold _count_in_df
  rw [hs, ht]

theorem count_in_df_ok {t : Table} {c : Counts} (h : _count_in_df t = .ok c) :
    ∃ sc tc,
      _pick_column (_normalize_columns t).cols statusCandidates = .ok sc ∧
      _pick_column (_normalize_columns t).cols typeCandidates = .ok tc ∧
      c = ⟨(_normalize_columns t).rows.countP
             (fun r => doneRow (idxOfL (_normalize_columns t).cols sc) r),
           (_normalize_columns t).rows.countP
             (fun r => doneRow (idxOfL (_normalize_columns t).cols sc) r &&
               (normUpper (r.getD (idxOfL (_normalize_columns t).cols tc) []) ==
                 postomatCode)),
           ((_normalize_columns t).rows.countP
              (fun r => doneRow (idxOfL (_normalize_columns t).cols sc) r) : Int) -
             ((_normalize_columns t).rows.countP
                (fun r => doneRow (idxOfL (_normalize_columns t).cols sc) r &&
                  (normUpper (r.getD (idxOfL (_normalize_columns t).cols tc) []) ==
                    postomatCode)) : Int)⟩ := by
  cases hs : _pick_column (_normalize_columns t).cols statusCandidates with
  | error e => unfold _count_in_df at h; rw [hs] at h; exact Except.noConfusion h
  | ok sc =>
    cases ht : _pick_column (_normalize_columns t).cols typeCandidates with
    | error e => unfold _count_in_df at h; rw [hs, ht] at h; exact Except.noConfusion h
    | ok tc =>
      refine ⟨sc, tc, rfl, rfl, ?_⟩
      have h2 := count_in_df_eq_of_picks hs ht
      rw [h] at h2
      exact Except.ok.inj h2

/-- C10: whenever `_count_in_df` succeeds, postomats + others equals
total_completed exactly, with 0 ≤ postomats ≤ total_completed and
others ≥ 0: every completed row lands in exactly one bucket and a completed
row with an unrecognized type code lands in others. -/
theorem c10_completed_partition :
    ∀ (t : Table) (c : Counts), _count_in_df t = .ok c →
      (c.postomats : Int) + c.others = (c.total_completed : Int) ∧
      c.postomats ≤ c.total_completed ∧ 0 ≤ c.others := by
  intro t c h
  obtain ⟨sc, tc, -, -, rfl⟩ := count_in_df_ok h
  have hle : (_normalize_columns t).rows.countP
               (fun r => doneRow (idxOfL (_normalize_columns t).cols sc) r &&
                 (normUpper (r.getD (idxOfL (_normalize_columns t).cols tc) []) ==
                   postomatCode)) ≤
             (_normalize_columns t).rows.countP
               (fun r => doneRow (idxOfL (_normalize_columns t).cols sc) r) :=
    List.countP_mono_left (fun r _ hr => ((Bool.and_eq_true _ _).mp hr).1)
  refine ⟨by dsimp only; omega, hle, by dsimp only; omega⟩

/-- Closed instance of C10 at the example table. -/
theorem c10_completed_partition_witness :
    _count_in_df tEx = .ok ⟨2, 1, 1⟩ ∧
    (((2 : Nat) : Int) - 1 = 1 ∧ (1 : Nat) ≤ 2 ∧ (0 : Int) ≤ 1) :=
  ⟨rfl, by
    have h := c10_completed_partition tEx ⟨2, 1, 1⟩ rfl
    exact ⟨by omega, h.2.1, h.2.2⟩⟩

/-- C8: when `_count_in_df` succeeds, `total_completed` equals the number
of status-column values that equal `выполнено` after trimming, lowercasing,
and folding ё→е; the count is invariant under any permutation of the rows. -/
theorem c8_total_completed_row_count :
    ∀ (t t' : Table) (c : Counts),
      t'.cols = t.cols → t'.rows.Perm t.rows → _count_in_df t = .ok c →
      (∃ sc, _pick_column (_normalize_columns t).cols statusCandidates = .ok sc ∧
        c.total_completed =
          ((getCol (_normalize_columns t) sc).map normLower).count doneToken) ∧
      (∃ c', _count_in_df t' = .ok c' ∧ c'.total_completed = c.total_completed) := by
  intro t t' c hcols hperm h
  obtain ⟨sc, tc, hs, ht, hc⟩ := count_in_df_ok h
  constructor
  · refine ⟨sc, hs, ?_⟩
    subst hc
    dsimp only
    simp only [getCol, List.map_map, List.count_eq_countP, List.countP_map]
    apply List.countP_congr
    intro r _
    simp [doneRow, Function.comp]
  · have hcn : (_normalize_columns t').cols = (_normalize_columns t).cols := by
      simp [_normalize_columns, hcols]
    have hs' : _pick_column (_normalize_columns t').cols statusCandidates = .ok sc := by
      rw [hcn]; exact hs
    have ht' : _pick_column (_normalize_columns t').cols typeCandidates = .ok tc := by
      rw [hcn]; exact ht
    refine ⟨_, count_in_df_eq_of_picks hs' ht', ?_⟩
    subst hc
    dsimp only
    have hrows : (_normalize_columns t').rows.Perm (_normalize_columns t).rows := by
      simpa [_normalize_columns] using hperm
    rw [hcn]
    exact hrows.countP_eq _

/-- Closed instance of C8 at the example table and its row-swapped variant. -/
theorem c8_total_completed_row_count_witness :
    tExSwap.cols = tEx.cols ∧ tExSwap.rows.Perm tEx.rows ∧
    _count_in_df tEx = .ok ⟨2, 1, 1⟩ ∧
    ((∃ sc, _pick_column (_normalize_columns tEx).cols statusCandidates = .ok sc ∧
        (⟨2, 1, 1⟩ : Counts).total_completed =
          ((getCol (_normalize_columns tEx) sc).map normLower).count doneToken) ∧
     (∃ c', _count_in_df tExSwap = .ok c' ∧
        c'.total_completed = (⟨2, 1, 1⟩ : Counts).total_completed)) :=
  ⟨rfl, by decide, rfl,
   c8_total_completed_row_count tEx tExSwap ⟨2, 1, 1⟩ rfl (by decide) rfl⟩

theorem pickExact_eq (cols cands : List Str) :
    pickExact cols cands = cands.find? (fun cand => cols.contains cand) := by
  induction cands with
  | nil => rfl
  | cons c rest ih =>
    by_cases h : c ∈ cols
    · simp [pickExact, List.find?, h]
    · simp [pickExact, List.find?, h, ih]

theorem pickSub_eq (cands cols : List Str) :
    pickSub cands cols =
      cols.find? (fun col => cands.any (fun cand => containsSub col cand)) := by
  induction cols with
  | nil => rfl
  | cons col rest ih =>
    by_cases h : cands.any (fun cand => containsSub col cand) = true
    · simp [pickSub, List.find?, h]
    · simp [pickSub, List.find?, h, ih]

/-- C5: `_pick_column` tries every candidate for an exact match, in
candidate order, before any substring matching; only when no candidate is
a column name does it return the first column (in table order) containing
a candidate as a substring; on `["статус", "статус общий"]` with candidate
`["статус"]` it returns `"статус"`. -/
theorem c5_exact_match_wins :
    (∀ (cols cands : List Str) (cand : Str),
      cands.find? (fun c => cols.contains c) = some cand →
      _pick_column cols cands = .ok cand) ∧
    (∀ (cols cands : List Str),
      cands.find? (fun c => cols.contains c) = none →
      _pick_column cols cands =
        (match cols.find? (fun col => cands.any (fun c => containsSub col c)) with
         | some col => .ok col
         | none => .error pickColumnErrMsg)) ∧
    _pick_column [codes "статус", codes "статус общий"] [codes "статус"] =
      .ok (codes "статус") := by
  refine ⟨?_, ?_, rfl⟩
  · intro cols cands cand hf
    unfold _pick_column
    rw [pickExact_eq, hf]
  · intro cols cands hf
    unfold _pick_column
    rw [pickExact_eq, hf, pickSub_eq]

/-- Closed instance of C5's exact-pass clause. -/
theorem c5_exact_match_wins_witness :
    [codes "статус"].find?
        (fun c => [codes "статус", codes "статус общий"].contains c) =
      some (codes "статус") ∧
    _pick_column [codes "статус", codes "статус общий"] [codes "статус"] =
      .ok (codes "статус") :=
  ⟨rfl, c5_exact_match_wins.1 _ _ _ rfl⟩

theorem codeLoop_skip (t : Table) (up : List Str) :
    ∀ (cols : List Str) (best : Option Str) (bh : Int),
      (∀ c ∈ cols, (hitsOf t up c : Int) ≤ bh) →
      codeLoop t up cols best bh = (best, bh) := by
  intro cols
  induction cols with
  | nil => intro best bh _; rfl
  | cons a rest ih =>
    intro best bh h
    have ha := h a (by simp)
    simp only [codeLoop]
    rw [if_neg (by omega)]
    exact ih best bh (fun c hc => h c (by simp [hc]))

theorem codeLoop_finds (t : Table) (up : List Str) (M : Nat) :
    ∀ (cols : List Str) (best : Option Str) (bh : Int) (c : Str),
      bh < (M : Int) →
      (∀ x ∈ cols, hitsOf t up x ≤ M) →
      cols.find? (fun x => hitsOf t up x == M) = some c →
      codeLoop t up cols best bh = (some c, (M : Int)) := by
  intro cols
  induction cols with
  | nil => intro best bh c _ _ hf; simp [List.find?] at hf
  | cons a rest ih =>
    intro best bh c hbh hbound hf
    by_cases ha : (hitsOf t up a == M) = true
    · have haM : hitsOf t up a = M := by simpa using ha
      have hceq : a = c := by simpa [List.find?, ha] using hf
      subst hceq
      simp only [codeLoop]
      rw [if_pos (by omega), haM]
      exact codeLoop_skip t up rest (some a) M
        (fun x hx => by
          have := hbound x (by simp [hx])
          omega)
    · have hfr : rest.find? (fun x => hitsOf t up x == M) = some c := by
        simpa [List.find?, ha] using hf
      simp only [codeLoop]
      by_cases hup : (hitsOf t up a : Int) > bh
      · rw [if_pos hup]
        refine ih (some a) _ c ?_ (fun x hx => hbound x (by simp [hx])) hfr
        have hne : hitsOf t up a ≠ M := by simpa using ha
        have hle : hitsOf t up a ≤ M := hbound a (by simp)
        omega
      · rw [if_neg hup]
        exact ih best bh c hbh (fun x hx => hbound x (by simp [hx])) hfr

theorem codeLoop_snd_zero (t : Table) (up : List Str) :
    ∀ (cols : List Str) (best : Option Str) (bh : Int), bh ≤ 0 →
      (∀ x ∈ cols, hitsOf t up x = 0) →
      (codeLoop t up cols best bh).2 ≤ 0 := by
  intro cols
  induction cols with
  | nil => intro best bh hbh _; exact hbh
  | cons a rest ih =>
    intro best bh hbh hall
    have ha := hall a (by simp)
    simp only [codeLoop, ha]
    by_cases hup : (((0 : Nat) : Int) > bh)
    · rw [if_pos hup]
      exact ih (some a) _ (by omega) (fun x hx => hall x (by simp [hx]))
    · rw [if_neg hup]
      exact ih best bh hbh (fun x hx => hall x (by simp [hx]))

theorem foldr_max_le {l : List Nat} {x : Nat} (hx : x ∈ l) : x ≤ l.foldr max 0 := by
  induction l with
  | nil => cases hx
  | cons a rest ih =>
    rcases List.mem_cons.mp hx with h | h
    · subst h
      simp only [List.foldr]
      omega
    · have := ih h
      simp only [List.foldr]
      omega

/-- C7: `_find_code_col_loose` returns the column attaining the maximal
exact-hit count — the first one in table order when several tie (two
columns with 2 of 4 expected codes each select the first); when the
maximal count is zero it returns the first column containing an
`MSK`+digits value, failing if none exists. -/
theorem c7_code_column_selection :
    (∀ (t : Table) (cs : List Str) (c : Str),
      0 < (t.cols.map (hitsOf t (cs.map (fun x => upperStr (stripL x))))).foldr max 0 →
      t.cols.find? (fun col =>
          hitsOf t (cs.map (fun x => upperStr (stripL x))) col ==
            (t.cols.map (hitsOf t (cs.map (fun x => upperStr (stripL x))))).foldr max 0) =
        some c →
      _find_code_col_loose t cs = .ok c) ∧
    (∀ (t : Table) (cs : List Str),
      (t.cols.map (hitsOf t (cs.map (fun x => upperStr (stripL x))))).foldr max 0 = 0 →
      _find_code_col_loose t cs =
        (match t.cols.find? (fun col => (getCol t col).any (fun cell => hasMsk cell)) with
         | some col => .ok col
         | none => .error codeColErrMsg)) ∧
    _find_code_col_loose tieTable (pmCodes.map Prod.snd) = .ok (codes "A") := by
  refine ⟨?_, ?_, rfl⟩
  · intro t cs c hM hf
    have hbound : ∀ x ∈ t.cols,
        hitsOf t (cs.map (fun x => upperStr (stripL x))) x ≤
          (t.cols.map (hitsOf t (cs.map (fun x => upperStr (stripL x))))).foldr max 0 :=
      fun x hx => foldr_max_le (List.mem_map_of_mem _ hx)
    have hloop := codeLoop_finds t (cs.map (fun x => upperStr (stripL x)))
      ((t.cols.map (hitsOf t (cs.map (fun x => upperStr (stripL x))))).foldr max 0)
      t.cols none (-1) c (by omega) hbound hf
    simp only [_find_code_col_loose, hloop]
    rw [if_neg (by omega)]
  · intro t cs hM
    have hall : ∀ x ∈ t.cols, hitsOf t (cs.map (fun x => upperStr (stripL x))) x = 0 :=
      fun x hx => Nat.le_zero.mp (hM ▸ foldr_max_le (List.mem_map_of_mem _ hx))
    have hz := codeLoop_snd_zero t (cs.map (fun x => upperStr (stripL x)))
      t.cols none (-1) (by omega) hall
    simp only [_find_code_col_loose]
    rcases hp : codeLoop t (cs.map (fun x => upperStr (stripL x))) t.cols none (-1)
      with ⟨b, v⟩
    rw [hp] at hz
    cases b with
    | none => rfl
    | some c =>
      dsimp only at hz ⊢
      rw [if_pos hz]

/-- Closed instance of C7's maximal-hit clause at the tie table. -/
theorem c7_code_column_selection_witness :
    0 < (tieTable.cols.map
          (hitsOf tieTable ((pmCodes.map Prod.snd).map (fun x => upperStr (stripL x))))).foldr
        max 0 ∧
    _find_code_col_loose tieTable (pmCodes.map Prod.snd) = .ok (codes "A") :=
  ⟨by decide, c7_code_column_selection.1 tieTable (pmCodes.map Prod.snd) (codes "A")
    (by decide) (by decide)⟩

theorem addCounts_zero_right (c : Counts) : addCounts c zeroCounts = c := by
  cases c
  simp [addCounts, zeroCounts]

theorem addCounts_zero_left (c : Counts) : addCounts zeroCounts c = c := by
  cases c
  simp [addCounts, zeroCounts]

theorem addCounts_assoc (a b c : Counts) :
    addCounts a (addCounts b c) = addCounts (addCounts a b) c := by
  simp [addCounts, Nat.add_assoc, Int.add_assoc]

theorem analyze_csvs_append (xs ys : List CsvFile) :
    analyze_csvs (xs ++ ys) =
      ⟨addCounts (analyze_csvs xs).totals (analyze_csvs ys).totals,
       (analyze_csvs xs).per_file ++ (analyze_csvs ys).per_file,
       (analyze_csvs xs).errors ++ (analyze_csvs ys).errors⟩ := by
  induction xs with
  | nil =>
    rcases h : analyze_csvs ys with ⟨t, p, e⟩
    simp only [List.nil_append, h, analyze_csvs]
    rw [addCounts_zero_left]
  | cons f rest ih =>
    by_cases hs : lowerStr f.suffix = csvSuffix
    · cases hp : csvProcess f with
      | ok c =>
        simp only [List.cons_append, List.append_eq, analyze_csvs, if_pos hs, hp]
        rw [ih]
        simp [addCounts_assoc]
      | error e =>
        simp only [List.cons_append, List.append_eq, analyze_csvs, if_pos hs, hp]
        rw [ih]
    · simp only [List.cons_append, analyze_csvs, if_neg hs]
      exact ih

/-- C4: in the CSV batch, a failing file (decode or counting) contributes
exactly one error entry and nothing else: the totals and `per_file` records
equal those of the batch without it; for three files with the middle one
corrupt, the totals are the element-wise sums over files 1 and 3 and the
error list has exactly the one entry for file 2. -/
theorem c4_failure_isolation :
    (∀ (pre post : List CsvFile) (f : CsvFile) (e : Str),
      lowerStr f.suffix = csvSuffix → csvProcess f = .error e →
      analyze_csvs (pre ++ f :: post) =
        ⟨(analyze_csvs (pre ++ post)).totals,
         (analyze_csvs (pre ++ post)).per_file,
         (analyze_csvs pre).errors ++ ⟨f.path, e⟩ :: (analyze_csvs post).errors⟩) ∧
    (∀ (f1 f2 f3 : CsvFile) (c1 c3 : Counts) (e : Str),
      lowerStr f1.suffix = csvSuffix → lowerStr f2.suffix = csvSuffix →
      lowerStr f3.suffix = csvSuffix →
      csvProcess f1 = .ok c1 → csvProcess f2 = .error e → csvProcess f3 = .ok c3 →
      analyze_csvs [f1, f2, f3] =
        ⟨⟨c1.total_completed + c3.total_completed, c1.postomats + c3.postomats,
          c1.others + c3.others⟩,
         [⟨f1.path, c1.total_completed, c1.postomats, c1.others⟩,
          ⟨f3.path, c3.total_completed, c3.postomats, c3.others⟩],
         [⟨f2.path, e⟩]⟩) := by
  constructor
  · intro pre post f e hs hp
    have hstep : analyze_csvs (f :: post) =
        ⟨(analyze_csvs post).totals, (analyze_csvs post).per_file,
         ⟨f.path, e⟩ :: (analyze_csvs post).errors⟩ := by
      simp only [analyze_csvs, if_pos hs, hp]
    rw [analyze_csvs_append, analyze_csvs_append, hstep]
  · intro f1 f2 f3 c1 c3 e hs1 hs2 hs3 hp1 hp2 hp3
    have h3 : analyze_csvs [f3] =
        ⟨addCounts c3 zeroCounts,
         [⟨f3.path, c3.total_completed, c3.postomats, c3.others⟩], []⟩ := by
      simp only [analyze_csvs, if_pos hs3, hp3]
    have h2 : analyze_csvs [f2, f3] =
        ⟨addCounts c3 zeroCounts,
         [⟨f3.path, c3.total_completed, c3.postomats, c3.others⟩],
         [⟨f2.path, e⟩]⟩ := by
      simp only [analyze_csvs, if_pos hs2, hp2] at h3 ⊢
      rw [h3]
    have h1 : analyze_csvs [f1, f2, f3] =
        ⟨addCounts c1 (addCounts c3 zeroCounts),
         [⟨f1.path, c1.total_completed, c1.postomats, c1.others⟩,
          ⟨f3.path, c3.total_completed, c3.postomats, c3.others⟩],
         [⟨f2.path, e⟩]⟩ := by
      simp only [analyze_csvs, if_pos hs1, hp1] at h2 ⊢
      rw [h2]
    rw [h1, addCounts_zero_right]
    rfl

/-- Closed instance of C4's isolation clause at a concrete three-file batch. -/
theorem c4_failure_isolation_witness :
    lowerStr badCsv.suffix = csvSuffix ∧
    csvProcess badCsv = .error (codes "ParserError: ожидалось 2 поля") ∧
    analyze_csvs [okCsv1, badCsv, okCsv3] =
      ⟨(analyze_csvs [okCsv1, okCsv3]).totals,
       (analyze_csvs [okCsv1, okCsv3]).per_file,
       (analyze_csvs [okCsv1]).errors ++
         ⟨badCsv.path, codes "ParserError: ожидалось 2 поля"⟩ ::
           (analyze_csvs [okCsv3]).errors⟩ :=
  ⟨rfl, rfl, c4_failure_isolation.1 [okCsv1] [okCsv3] badCsv _ rfl rfl⟩

theorem analyze_pm_excels_length (ps : List XlFile) :
    (analyze_pm_excels ps).results.length + (analyze_pm_excels ps).errors.length +
      (analyze_pm_excels ps).skipped.length = ps.length := by
  induction ps with
  | nil => rfl
  | cons f rest ih =>
    by_cases hs : excelExts.contains (lowerStr f.suffix) = true
    · cases hsh : f.sheets with
      | error e =>
        simp only [analyze_pm_excels, if_pos hs, hsh, List.length_cons]
        omega
      | ok sheets =>
        cases hl : pmLoop sheets none (-1) with
        | none =>
          simp only [analyze_pm_excels, if_pos hs, hsh, hl, List.length_cons]
          omega
        | some sv =>
          simp only [analyze_pm_excels, if_pos hs, hsh, hl, List.length_cons]
          omega
    · simp only [analyze_pm_excels, if_neg hs, List.length_cons]
      omega

theorem analyze_pm_excels_mem (ps : List XlFile) :
    ∀ f ∈ ps,
      (∃ r ∈ (analyze_pm_excels ps).results, r.file = f.path) ∨
      (∃ er ∈ (analyze_pm_excels ps).errors, er.file = f.path) ∨
      (∃ sk ∈ (analyze_pm_excels ps).skipped, sk.file = f.path) := by
  induction ps with
  | nil => intro f hf; cases hf
  | cons g rest ih =>
    intro f hf
    by_cases hs : excelExts.contains (lowerStr g.suffix) = true
    · cases hsh : g.sheets with
      | error e =>
        simp only [analyze_pm_excels, if_pos hs, hsh]
        rcases List.mem_cons.mp hf with rfl | hf'
        · exact Or.inr (Or.inl ⟨⟨f.path, e⟩, List.mem_cons_self _ _, rfl⟩)
        · rcases ih f hf' with ⟨r, hr, he⟩ | ⟨er, her, he⟩ | ⟨sk, hsk, he⟩
          · exact Or.inl ⟨r, hr, he⟩
          · exact Or.inr (Or.inl ⟨er, List.mem_cons_of_mem _ her, he⟩)
          · exact Or.inr (Or.inr ⟨sk, hsk, he⟩)
      | ok sheets =>
        cases hl : pmLoop sheets none (-1) with
        | none =>
          simp only [analyze_pm_excels, if_pos hs, hsh, hl]
          rcases List.mem_cons.mp hf with rfl | hf'
          · exact Or.inr (Or.inl ⟨⟨f.path, noDataErrMsg⟩, List.mem_cons_self _ _, rfl⟩)
          · rcases ih f hf' with ⟨r, hr, he⟩ | ⟨er, her, he⟩ | ⟨sk, hsk, he⟩
            · exact Or.inl ⟨r, hr, he⟩
            · exact Or.inr (Or.inl ⟨er, List.mem_cons_of_mem _ her, he⟩)
            · exact Or.inr (Or.inr ⟨sk, hsk, he⟩)
        | some sv =>
          simp only [analyze_pm_excels, if_pos hs, hsh, hl]
          rcases List.mem_cons.mp hf with rfl | hf'
          · exact Or.inl ⟨⟨f.path, sv.1, sv.2⟩, List.mem_cons_self _ _, rfl⟩
          · rcases ih f hf' with ⟨r, hr, he⟩ | ⟨er, her, he⟩ | ⟨sk, hsk, he⟩
            · exact Or.inl ⟨r, List.mem_cons_of_mem _ hr, he⟩
            · exact Or.inr (Or.inl ⟨er, her, he⟩)
            · exact Or.inr (Or.inr ⟨sk, hsk, he⟩)
    · simp only [analyze_pm_excels, if_neg hs]
      rcases List.mem_cons.mp hf with rfl | hf'
      · exact Or.inr (Or.inr ⟨⟨f.path, notExcelReason⟩, List.mem_cons_self _ _, rfl⟩)
      · rcases ih f hf' with ⟨r, hr, he⟩ | ⟨er, her, he⟩ | ⟨sk, hsk, he⟩
        · exact Or.inl ⟨r, hr, he⟩
        · exact Or.inr (Or.inl ⟨er, her, he⟩)
        · exact Or.inr (Or.inr ⟨sk, List.mem_cons_of_mem _ hsk, he⟩)

theorem analyze_csvs_length (qs : List CsvFile) :
    (analyze_csvs qs).per_file.length + (analyze_csvs qs).errors.length =
      qs.countP (fun f => lowerStr f.suffix == csvSuffix) := by
  induction qs with
  | nil => rfl
  | cons f rest ih =>
    by_cases hs : lowerStr f.suffix = csvSuffix
    · have hb : (lowerStr f.suffix == csvSuffix) = true := by
        simpa using hs
      cases hp : csvProcess f with
      | ok c =>
        simp only [analyze_csvs, if_pos hs, hp, List.countP_cons, hb,
          List.length_cons, if_pos]
        omega
      | error e =>
        simp only [analyze_csvs, if_pos hs, hp, List.countP_cons, hb,
          List.length_cons, if_pos]
        omega
    · have hb : (lowerStr f.suffix == csvSuffix) = false := by
        simpa using hs
      simp only [analyze_csvs, if_neg hs, List.countP_cons, hb]
      simpa using ih

/-- C2 (amended): every file handed to `analyze_pm_excels` gets exactly one
record — a result, an error, or a skip — and its path occurs in one of the
three lists.  In `analyze_csvs`, every `.csv`-suffixed file gets exactly
one record (`per_file` or error), but files with any other suffix are
passed over silently: the result shape has no skip list at all. -/
theorem c2_per_file_accounting :
    (∀ ps : List XlFile,
      (analyze_pm_excels ps).results.length + (analyze_pm_excels ps).errors.length +
        (analyze_pm_excels ps).skipped.length = ps.length) ∧
    (∀ (ps : List XlFile), ∀ f ∈ ps,
      (∃ r ∈ (analyze_pm_excels ps).results, r.file = f.path) ∨
      (∃ er ∈ (analyze_pm_excels ps).errors, er.file = f.path) ∨
      (∃ sk ∈ (analyze_pm_excels ps).skipped, sk.file = f.path)) ∧
    (∀ qs : List CsvFile,
      (analyze_csvs qs).per_file.length + (analyze_csvs qs).errors.length =
        qs.countP (fun f => lowerStr f.suffix == csvSuffix)) :=
  ⟨analyze_pm_excels_length, analyze_pm_excels_mem, analyze_csvs_length⟩

/-- Closed instance of C2's membership clause at a two-file workbook batch. -/
theorem c2_per_file_accounting_witness :
    (∃ r ∈ (analyze_pm_excels [pmOkFile, txtXlFile]).results,
       r.file = txtXlFile.path) ∨
    (∃ er ∈ (analyze_pm_excels [pmOkFile, txtXlFile]).errors,
       er.file = txtXlFile.path) ∨
    (∃ sk ∈ (analyze_pm_excels [pmOkFile, txtXlFile]).skipped,
       sk.file = txtXlFile.path) :=
  c2_per_file_accounting.2.1 [pmOkFile, txtXlFile] txtXlFile
    (List.mem_cons_of_mem _ (List.mem_cons_self _ _))

/-- C2 fails as stated on `analyze_csvs`: a batch holding one non-`.csv`
file returns empty `per_file` and `errors` lists (and the result type has
no skip list), so the file is omitted with no record of any kind. -/
theorem c2_silent_non_csv_omission :
    (analyze_csvs [xlsxToCsvFile]).per_file = [] ∧
    (analyze_csvs [xlsxToCsvFile]).errors = [] :=
  ⟨rfl, rfl⟩

theorem pmLoop_some_of_acc :
    ∀ (l : List (Str × Table)) (b : Str × List (Str × Option Str)) (bs : Int),
      ∃ r, pmLoop l (some b) bs = some r := by
  intro l
  induction l with
  | nil => intro b bs; exact ⟨b, rfl⟩
  | cons nd rest ih =>
    intro b bs
    obtain ⟨name, df⟩ := nd
    cases hx : _extract_pm_from_df df with
    | error e => simpa only [pmLoop, hx] using ih b bs
    | ok vals =>
      simp only [pmLoop, hx]
      by_cases hgt : ((pmScore vals : Nat) : Int) > bs
      · rw [if_pos hgt]
        by_cases h4 : pmScore vals = pmCodes.length
        · rw [if_pos h4]; exact ⟨(name, vals), rfl⟩
        · rw [if_neg h4]; exact ih (name, vals) _
      · rw [if_neg hgt]; exact ih b bs

theorem pmLoop_none_iff (l : List (Str × Table)) :
    pmLoop l none (-1) = none ↔
      ∀ p ∈ l, ∃ e, _extract_pm_from_df p.2 = .error e := by
  induction l with
  | nil => simp [pmLoop]
  | cons nd rest ih =>
    obtain ⟨name, df⟩ := nd
    cases hx : _extract_pm_from_df df with
    | error e =>
      simp only [pmLoop, hx]
      constructor
      · intro h p hp
        rcases List.mem_cons.mp hp with rfl | hp'
        · exact ⟨e, hx⟩
        · exact ih.mp h p hp'
      · intro h
        exact ih.mpr (fun p hp => h p (List.mem_cons_of_mem _ hp))
    | ok vals =>
      have hgt : ((pmScore vals : Nat) : Int) > -1 := by omega
      have hnone : ∀ e, _extract_pm_from_df df ≠ .error e := by
        intro e he
        rw [hx] at he
        exact Except.noConfusion he
      apply iff_of_false
      · simp only [pmLoop, hx]
        rw [if_pos hgt]
        by_cases h4 : pmScore vals = pmCodes.length
        · rw [if_pos h4]
          exact fun h => Option.noConfusion h
        · rw [if_neg h4]
          obtain ⟨r, hr⟩ := pmLoop_some_of_acc rest (name, vals) ((pmScore vals : Nat) : Int)
          rw [hr]
          exact fun h => Option.noConfusion h
      · intro hall
        obtain ⟨e, he⟩ := hall (name, df) (List.mem_cons_self _ _)
        exact hnone e he


/-- C3 (amended): for a readable workbook, a `NoMetricData`-style error is
recorded iff extraction fails on every sheet (metric or code column
unresolvable); whenever some sheet's extraction succeeds — even with zero
extracted values — a result with the best sheet's values is returned
instead. -/
theorem c3_no_data_error_iff :
    ∀ (f : XlFile) (l : List (Str × Table)),
      excelExts.contains (lowerStr f.suffix) = true →
      f.sheets = .ok l →
      (((analyze_pm_excels [f]).results = [] ∧
        (analyze_pm_excels [f]).errors = [⟨f.path, noDataErrMsg⟩]) ↔
        (∀ p ∈ l, ∃ e, _extract_pm_from_df p.2 = .error e)) ∧
      ((∃ p ∈ l, ∃ vals, _extract_pm_from_df p.2 = .ok vals) ↔
        ((analyze_pm_excels [f]).errors = [] ∧
         ∃ entry, (analyze_pm_excels [f]).results = [entry])) := by
  intro f l hs hsh
  have hdual : (∃ p ∈ l, ∃ vals, _extract_pm_from_df p.2 = .ok vals) ↔
      ¬ (∀ p ∈ l, ∃ e, _extract_pm_from_df p.2 = .error e) := by
    constructor
    · rintro ⟨p, hp, vals, hv⟩ hall
      obtain ⟨e, he⟩ := hall p hp
      rw [hv] at he
      exact Except.noConfusion he
    · intro hnall
      by_contra hne
      apply hnall
      intro p hp
      cases hpe : _extract_pm_from_df p.2 with
      | error e => exact ⟨e, rfl⟩
      | ok vals => exact absurd ⟨p, hp, vals, hpe⟩ hne
  cases hl : pmLoop l none (-1) with
  | none =>
    have hall := (pmLoop_none_iff l).mp hl
    have hxn : analyze_pm_excels [f] = ⟨[], [⟨f.path, noDataErrMsg⟩], []⟩ := by
      simp only [analyze_pm_excels, if_pos hs, hsh, hl]
    rw [hxn]
    constructor
    · exact iff_of_true ⟨rfl, rfl⟩ hall
    · apply iff_of_false
      · exact fun h => (hdual.mp h) hall
      · rintro ⟨herr, -⟩
        exact List.noConfusion herr
  | some sv =>
    have hnall : ¬ (∀ p ∈ l, ∃ e, _extract_pm_from_df p.2 = .error e) := by
      intro hall
      rw [(pmLoop_none_iff l).mpr hall] at hl
      exact Option.noConfusion hl
    have hxs : analyze_pm_excels [f] = ⟨[⟨f.path, sv.1, sv.2⟩], [], []⟩ := by
      simp only [analyze_pm_excels, if_pos hs, hsh, hl]
    rw [hxs]
    constructor
    · apply iff_of_false
      · rintro ⟨hres, -⟩
        exact List.noConfusion hres
      · exact hnall
    · exact iff_of_true (hdual.mpr hnall) ⟨rfl, ⟨f.path, sv.1, sv.2⟩, rfl⟩

/-- Closed instance of C3's amended statement: a workbook whose only sheet
resolves all four sites produces a result and no error. -/
theorem c3_no_data_error_iff_witness :
    (analyze_pm_excels [pmOkFile]).errors = [] ∧
    ∃ entry, (analyze_pm_excels [pmOkFile]).results = [entry] :=
  (c3_no_data_error_iff pmOkFile [(codes "Лист1", tblB4)] rfl rfl).2.mp
    ⟨(codes "Лист1", tblB4), List.mem_cons_self _ _, _, rfl⟩

/-- C3 fails as stated: in this workbook no metric value is extracted from
any sheet (the single sheet's code column is located through the
`MSK`-pattern fallback and its `MSK999` matches none of the configured
codes), yet no error is recorded — a result with four absent values is
returned. -/
theorem c3_all_values_absent_yet_no_error :
    analyze_pm_excels [cexC3File] =
      ⟨[⟨codes "pm.xlsx", codes "Лист1",
         [(codes "Декабрьская", none), (codes "Живова", none),
          (codes "Мневники", none), (codes "Твардовского", none)]⟩],
       [], []⟩ :=
  rfl

/-- Any successful extraction yields one value slot per configured site,
so its score is at most `len(PM_CODES)`. -/
theorem extract_score_le {t : Table} {vals : List (Str × Option Str)}
    (h : _extract_pm_from_df t = .ok vals) : pmScore vals ≤ pmCodes.length := by
  unfold _extract_pm_from_df at h
  cases h1 : _find_metric_col_loose t with
  | error e => rw [h1] at h; exact Except.noConfusion h
  | ok mc =>
    rw [h1] at h
    cases h2 : _find_code_col_loose t (pmCodes.map Prod.snd) with
    | error e => rw [h2] at h; exact Except.noConfusion h
    | ok cc =>
      rw [h2] at h
      have hv := (Except.ok.inj h).symm
      subst hv
      calc pmScore (pmCodes.map _) ≤ (pmCodes.map _).length := List.countP_le_length _
        _ = pmCodes.length := List.length_map _ _

/-- Once the accumulator already scores at least the maximum, the
exhaustive scan never replaces it. -/
theorem pmScanExhaustive_stuck :
    ∀ (l : List (Str × Table)) (best : Option (Str × List (Str × Option Str)))
      (bs : Int), (pmCodes.length : Int) ≤ bs →
      pmScanExhaustive l best bs = best := by
  intro l
  induction l with
  | nil => intro best bs _; rfl
  | cons nd rest ih =>
    intro best bs hbs
    obtain ⟨name, df⟩ := nd
    cases hx : _extract_pm_from_df df with
    | error e => simp only [pmScanExhaustive, hx]; exact ih best bs hbs
    | ok vals =>
      have hle := extract_score_le hx
      simp only [pmScanExhaustive, hx]
      rw [if_neg (by omega)]
      exact ih best bs hbs

/-- C6: the early-exit sheet scan computes exactly the exhaustive
strictly-highest-score, first-seen-wins scan — same selected sheet, same
values — on every workbook and every accumulator state; concretely, a 2/4
sheet followed by a 4/4 sheet selects the second, and two 3/4 sheets
select the first. -/
theorem c6_early_exit_equals_exhaustive :
    (∀ (sheets : List (Str × Table)) (best : Option (Str × List (Str × Option Str)))
        (bestScore : Int),
      pmLoop sheets best bestScore = pmScanExhaustive sheets best bestScore) ∧
    ((_extract_pm_from_df tblA2).map pmScore = .ok 2 ∧
     (_extract_pm_from_df tblB4).map pmScore = .ok 4 ∧
     (pmLoop [(codes "A", tblA2), (codes "B", tblB4)] none (-1)).map Prod.fst =
       some (codes "B")) ∧
    ((_extract_pm_from_df tblA3).map pmScore = .ok 3 ∧
     (_extract_pm_from_df tblB3).map pmScore = .ok 3 ∧
     (pmLoop [(codes "A", tblA3), (codes "B", tblB3)] none (-1)).map Prod.fst =
       some (codes "A")) := by
  refine ⟨?_, ⟨rfl, rfl, rfl⟩, ⟨rfl, rfl, rfl⟩⟩
  intro sheets
  induction sheets with
  | nil => intro best bs; rfl
  | cons nd rest ih =>
    intro best bs
    obtain ⟨name, df⟩ := nd
    cases hx : _extract_pm_from_df df with
    | error e => simp only [pmLoop, pmScanExhaustive, hx]; exact ih best bs
    | ok vals =>
      simp only [pmLoop, pmScanExhaustive, hx]
      by_cases hgt : ((pmScore vals : Nat) : Int) > bs
      · rw [if_pos hgt, if_pos hgt]
        by_cases h4 : pmScore vals = pmCodes.length
        · rw [if_pos h4]
          rw [pmScanExhaustive_stuck rest (some (name, vals)) _ (by omega)]
        · rw [if_neg h4]
          exact ih (some (name, vals)) _
      · rw [if_neg hgt, if_neg hgt]
        exact ih best bs

end CourierCards

